import Mathlib

/-!
# Verification of the `mc-map-tools` quadtree (`src/mc-map-tools/src/quadtree.rs`)

This file gives a shallow embedding of the generic 2D bounded-rectangle
quadtree of `mc-map-tools` and proves properties of its behaviour.

Modelling decisions:

* The Rust `f32` coordinates are modelled as rationals (`ℚ`).  Every
  arithmetic operation performed by the quadtree (addition, halving,
  comparison) is exact on the concrete inputs appearing in the
  repository's own scenarios (small integers and powers of two), so the
  rational model agrees with the `f32` code there; the structural
  properties proved below do not depend on the numeric type at all.
* An element of the tree (Rust's generic `T: Bounded`, stored by
  reference) is modelled as `Elem`: an identity tag plus the `bounds()`
  the trait produces.  Distinct elements may share the same bounds.
* Rust's `children: Option<[Box<QuadTree>; 4]>` ("either all four exist
  or none do") is modelled by two constructors: `leaf` (no children) and
  `branch` (exactly four children, in the array order TL, TR, BR, BL).
* `insert`/`split` are mutually recursive in the source through the
  redistribution loop of `split` (which re-`insert`s each element into a
  child and can cascade further splits).  Termination of that cascade in
  the source relies on the `max_depth` guard; here the mutual definition
  carries an explicit fuel counter that every nested call decrements,
  keeping the recursion structural.  Each fuel-exhaustion fallback is
  marked below; the public wrappers supply fuel that is never exhausted
  on trees built by the public operations (fresh trees have
  `depth = 0`, `max_depth = 10`, and every split increments the depth,
  so the real recursion is bounded), and every universally quantified
  theorem below is proved for *all* fuel values, so no statement depends
  on the particular wrapper fuel.
-/

namespace MapTools

/-- A bounded area represented by x, y, width, and height
(`struct Bounds` in `quadtree.rs`, with `f32` modelled as `ℚ`). -/
structure Bounds where
  x : ℚ
  y : ℚ
  width : ℚ
  height : ℚ
  deriving DecidableEq, Repr

/-- An element stored in (or used to query) the quadtree: Rust's generic
`T: Bounded`, i.e. a value that can produce a `Bounds`.  The `id` tag
models object identity (the tree stores references), so distinct
elements may share equal bounds. -/
structure Elem where
  id : ℕ
  bounds : Bounds
  deriving DecidableEq, Repr

/-- The quadrant tags (`enum Quadrant { TL, TR, BR, BL }`), in the
source's declaration order, which is also the order of the
`children` array. -/
inductive Quadrant where
  | TL
  | TR
  | BR
  | BL
  deriving DecidableEq, Repr

/-- The quadtree (`struct QuadTree`).  `leaf` is the `children: None`
state and `branch` the `children: Some([tl, tr, br, bl])` state. -/
inductive QuadTree where
  | leaf (capacity depth max_depth : ℕ) (bounds : Bounds) (elements : List Elem)
  | branch (capacity depth max_depth : ℕ) (bounds : Bounds) (elements : List Elem)
      (tl tr br bl : QuadTree)
  deriving DecidableEq, Repr

/-- `QuadTree::new`: capacity 4, max_depth 10, depth 0, empty, no children. -/
def newQT (bounds : Bounds) : QuadTree :=
  .leaf 4 0 10 bounds []

/-- The `fits_left_half` test of `QuadTree::get_quadrant`:
`r.x >= self.x && r.x + r.width < self.x + self.width / 2`. -/
def fitsLeftHalf (self r : Bounds) : Bool :=
  decide (r.x ≥ self.x) && decide (r.x + r.width < self.x + self.width / 2)

/-- The `fits_right_half` test of `QuadTree::get_quadrant`:
`r.x >= self.x + self.width / 2 && r.x + r.width < self.x + self.width`. -/
def fitsRightHalf (self r : Bounds) : Bool :=
  decide (r.x ≥ self.x + self.width / 2) && decide (r.x + r.width < self.x + self.width)

/-- The `fits_top_half` test of `QuadTree::get_quadrant`:
`r.y >= self.y && r.y + r.height < self.y + self.height / 2`. -/
def fitsTopHalf (self r : Bounds) : Bool :=
  decide (r.y ≥ self.y) && decide (r.y + r.height < self.y + self.height / 2)

/-- The `fits_bottom_half` test of `QuadTree::get_quadrant`:
`r.y >= self.y + self.height / 2 && r.y + r.height < self.y + self.height`. -/
def fitsBottomHalf (self r : Bounds) : Bool :=
  decide (r.y ≥ self.y + self.height / 2) && decide (r.y + r.height < self.y + self.height)

/-- `QuadTree::get_quadrant` applied to the node's bounds `self` and the
element's bounds `r` (the source calls `r.bounds()`; callers below pass
`e.bounds`). -/
def getQuadrant (self r : Bounds) : Option Quadrant :=
  if fitsTopHalf self r && fitsLeftHalf self r then some .TL
  else if fitsTopHalf self r && fitsRightHalf self r then some .TR
  else if fitsBottomHalf self r && fitsRightHalf self r then some .BR
  else if fitsBottomHalf self r && fitsLeftHalf self r then some .BL
  else none

/-- `QuadTree::contains` applied to the node's bounds `self` and the
element's bounds `r`:
`r.x >= self.x && r.x + r.width < self.width && r.y >= self.y && r.y + r.height < self.height`.
Note the far edges are compared against the raw `self.width` /
`self.height`, not `self.x + self.width` / `self.y + self.height`. -/
def containsQT (self r : Bounds) : Bool :=
  decide (r.x ≥ self.x) && decide (r.x + r.width < self.width)
    && decide (r.y ≥ self.y) && decide (r.y + r.height < self.height)

/-- Appending an element to the node's own element list
(`self.elements.push(element)`), used as the fuel-exhaustion fallback of
`insertFuel` (it preserves the element count and element multiset, so no
theorem below is affected by it; it is never reached under the wrapper
fuel on trees built by the public operations). -/
def pushRoot : QuadTree → Elem → QuadTree
  | .leaf c d md b es, e => .leaf c d md b (es ++ [e])
  | .branch c d md b es tl tr br bl, e => .branch c d md b (es ++ [e]) tl tr br bl

mutual

/-- `QuadTree::insert`.  Matches on `(self.get_quadrant(element), self)`:
* quadrant found and children exist → recurse into `children[q]`;
* no quadrant but children exist → push onto this node's own list;
* no children → push onto this node's own list and, if the count now
  exceeds `capacity`, attempt to split.

`fuel = 0` is the termination artifact: it falls back to a plain push. -/
def insertFuel : ℕ → QuadTree → Elem → QuadTree
  | 0, t, e => pushRoot t e
  | f + 1, .branch c d md b es tl tr br bl, e =>
    match getQuadrant b e.bounds with
    | some .TL => .branch c d md b es (insertFuel f tl e) tr br bl
    | some .TR => .branch c d md b es tl (insertFuel f tr e) br bl
    | some .BR => .branch c d md b es tl tr (insertFuel f br e) bl
    | some .BL => .branch c d md b es tl tr br (insertFuel f bl e)
    | none => .branch c d md b (es ++ [e]) tl tr br bl
  | f + 1, .leaf c d md b es, e =>
    if (es ++ [e]).length > c then splitBody f c d md b (es ++ [e])
    else .leaf c d md b (es ++ [e])

/-- The body of `QuadTree::split` on a childless node with the given
fields.  Mirrors the source: if `depth >= max_depth` it returns without
splitting; otherwise it creates the four children with quartered bounds
(TL, TR, BR, BL, in the source's array order) and redistributes every
held element, keeping the non-distributable remainder as this node's
element list.  (The source's `children: Some(_) => unreachable!()` arm
is modelled by `splitQT` below together with the theorem that `insert`
only ever invokes `split` on childless nodes.)

The fuel-0 arm is the termination artifact: it leaves the node unsplit
(which is also what the source's `depth >= max_depth` guard does, so the
arm agrees with the guard in the only place the wrappers can reach it). -/
def splitBody : ℕ → ℕ → ℕ → ℕ → Bounds → List Elem → QuadTree
  | 0, c, d, md, b, es => .leaf c d md b es
  | g + 1, c, d, md, b, es =>
    if d ≥ md then .leaf c d md b es
    else
        match splitLoop g b
            (.leaf c (d + 1) md ⟨b.x, b.y, b.width / 2, b.height / 2⟩ [])
            (.leaf c (d + 1) md ⟨b.x + b.width / 2, b.y, b.width / 2, b.height / 2⟩ [])
            (.leaf c (d + 1) md ⟨b.x + b.width / 2, b.y + b.height / 2, b.width / 2, b.height / 2⟩ [])
            (.leaf c (d + 1) md ⟨b.x, b.y + b.height / 2, b.width / 2, b.height / 2⟩ [])
            [] es with
        | (c0, c1, c2, c3, rem) => .branch c d md b rem c0 c1 c2 c3

/-- The redistribution loop of `QuadTree::split`:
`for &element in self.elements.iter() { match self.get_quadrant(element) {
Some(i) => children[i].insert(element), None => new_elements.push(element) } }`.
`b` is the splitting node's own bounds, `c0 c1 c2 c3` the evolving
children (TL, TR, BR, BL) and `acc` the accumulated `new_elements`.

The `0, es` arm with `es ≠ []` is the termination artifact: it keeps the
remaining elements at the node. -/
def splitLoop : ℕ → Bounds → QuadTree → QuadTree → QuadTree → QuadTree →
    List Elem → List Elem → QuadTree × QuadTree × QuadTree × QuadTree × List Elem
  | _, _, c0, c1, c2, c3, acc, [] => (c0, c1, c2, c3, acc)
  | 0, _, c0, c1, c2, c3, acc, es => (c0, c1, c2, c3, acc ++ es)
  | f + 1, b, c0, c1, c2, c3, acc, e :: rest =>
    match getQuadrant b e.bounds with
    | some .TL => splitLoop f b (insertFuel f c0 e) c1 c2 c3 acc rest
    | some .TR => splitLoop f b c0 (insertFuel f c1 e) c2 c3 acc rest
    | some .BR => splitLoop f b c0 c1 (insertFuel f c2 e) c3 acc rest
    | some .BL => splitLoop f b c0 c1 c2 (insertFuel f c3 e) acc rest
    | none => splitLoop f b c0 c1 c2 c3 (acc ++ [e]) rest

end

/-- `QuadTree::len`: this node's element count plus, recursively, the
counts of all children. -/
def len : QuadTree → ℕ
  | .leaf _ _ _ _ es => es.length
  | .branch _ _ _ _ es tl tr br bl => es.length + (len tl + len tr + len br + len bl)

/-- The number of nodes of the tree (used only to size the fuel of the
public wrappers). -/
def nodeCount : QuadTree → ℕ
  | .leaf _ _ _ _ _ => 1
  | .branch _ _ _ _ _ tl tr br bl =>
    1 + nodeCount tl + nodeCount tr + nodeCount br + nodeCount bl

/-- The node's `depth` field. -/
def depthOf : QuadTree → ℕ
  | .leaf _ d _ _ _ => d
  | .branch _ d _ _ _ _ _ _ _ => d

/-- The node's `max_depth` field. -/
def maxDepthOf : QuadTree → ℕ
  | .leaf _ _ md _ _ => md
  | .branch _ _ md _ _ _ _ _ _ => md

/-- The node's `capacity` field. -/
def capacityOf : QuadTree → ℕ
  | .leaf c _ _ _ _ => c
  | .branch c _ _ _ _ _ _ _ _ => c

/-- The node's `bounds` field. -/
def rootBounds : QuadTree → Bounds
  | .leaf _ _ _ b _ => b
  | .branch _ _ _ b _ _ _ _ _ => b

/-- The node's own `elements` list. -/
def rootElements : QuadTree → List Elem
  | .leaf _ _ _ _ es => es
  | .branch _ _ _ _ es _ _ _ _ => es

/-- Whether the node has no children (`self.children.is_none()`). -/
def isLeafB : QuadTree → Bool
  | .leaf _ _ _ _ _ => true
  | .branch _ _ _ _ _ _ _ _ _ => false

/-- The bounds of the four children (TL, TR, BR, BL), when children
exist. -/
def childrenBounds : QuadTree → Option (Bounds × Bounds × Bounds × Bounds)
  | .leaf _ _ _ _ _ => none
  | .branch _ _ _ _ _ tl tr br bl =>
    some (rootBounds tl, rootBounds tr, rootBounds br, rootBounds bl)

/-- Fuel supplied by the public `insert` wrapper.  One insert descends
at most `nodeCount` stored levels, and the split cascade it can trigger
re-routes each of at most `len + 1` elements at most `max_depth + 1`
times, so the recursion of one insert makes far fewer nested calls than
this product.  Every universally quantified theorem below holds for
every fuel value, so no statement depends on this particular choice;
the concrete scenario theorems evaluate the wrapper as is. -/
def fuelFor (t : QuadTree) : ℕ :=
  (nodeCount t + len t + maxDepthOf t + 2) * (maxDepthOf t + 2)

/-- The public `QuadTree::insert`. -/
def insert (t : QuadTree) (e : Elem) : QuadTree :=
  insertFuel (fuelFor t) t e

/-- A sequence of `insert` calls, left to right. -/
def insertAll (t : QuadTree) (es : List Elem) : QuadTree :=
  es.foldl insert t

/-- The public `QuadTree::split`, including its `unreachable!()` arm:
`none` models the panic taken when `split` is called on a node that
already has children at a depth below `max_depth`.  (The depth guard
precedes the `match` in the source, so a deep node returns `self`
unchanged even if it has children.) -/
def splitQT (t : QuadTree) : Option QuadTree :=
  if depthOf t ≥ maxDepthOf t then some t
  else
    match t with
    | .branch _ _ _ _ _ _ _ _ _ => none
    | .leaf c d md b es => some (splitBody (fuelFor t) c d md b es)

/-- `QuadTree::clear`: empties every node's element list, recursively
clears and then discards all children (`self.children = None`), leaving
a childless node with this node's other fields intact. -/
def clear : QuadTree → QuadTree
  | .leaf c d md b _ => .leaf c d md b []
  | .branch c d md b _ _ _ _ _ => .leaf c d md b []

/-- The sequence of elements produced by the `Items` iterator
(`QuadTree::iter`): a node's own elements first, then the elements of
the TL, TR, BR, BL subtrees, in that fixed order (the iterator's
explicit quadrant-path stack enumerates the children in the successor
order `TL → TR → BR → BL` of `Items::next`). -/
def toList : QuadTree → List Elem
  | .leaf _ _ _ _ es => es
  | .branch _ _ _ _ es tl tr br bl =>
    es ++ (toList tl ++ (toList tr ++ (toList br ++ toList bl)))

/-- The state machine of the `QueryItems` iterator (`QuadTree::query`),
as the full list of elements it yields.  `q` is the query element's
bounds, `t` the current node (`self.qt`) and `stack` the pending-sibling
stack (`self.next_qts`, topmost first).  Mirrors `QueryItems::next`:
* yield the current node's own elements;
* if the element fits a single quadrant and children exist, descend into
  exactly that child;
* if it fits no quadrant but children exist: if the node does not
  `contains` the element, stop (yielding nothing further, abandoning the
  pending stack); otherwise descend into TL after pushing TR, BR, BL
  (so the stack pops them in the order BL, BR, TR);
* at a childless node, pop the pending stack, or stop if it is empty.

The fuel counter is the termination artifact; `queryQT` supplies
`2 * nodeCount + 2`, and `queryGoFuel_fuel_irrelevant` below shows that
any two fuels exceeding `nodeCount t` plus the total node count of the
stack (an upper bound on the number of traversal steps) give the same
result, so the fuel never shows through. -/
def queryGoFuel : ℕ → Bounds → QuadTree → List QuadTree → List Elem
  | 0, _, _, _ => []
  | f + 1, q, .leaf _ _ _ _ es, stack =>
    es ++ match stack with
      | [] => []
      | s :: rest => queryGoFuel f q s rest
  | f + 1, q, .branch _ _ _ b es tl tr br bl, stack =>
    es ++ match getQuadrant b q with
      | some .TL => queryGoFuel f q tl stack
      | some .TR => queryGoFuel f q tr stack
      | some .BR => queryGoFuel f q br stack
      | some .BL => queryGoFuel f q bl stack
      | none =>
        if containsQT b q then queryGoFuel f q tl (bl :: br :: tr :: stack)
        else []

/-- The public `QuadTree::query` on a query element with bounds `q`:
the full sequence of elements the `QueryItems` iterator yields. -/
def queryQT (t : QuadTree) (q : Bounds) : List Elem :=
  queryGoFuel (2 * nodeCount t + 2) q t []

/-- The elements stored in the tree, as a multiset (ignoring order). -/
def elemsMS (t : QuadTree) : Multiset Elem :=
  (toList t : Multiset Elem)

/-- Total element count of the four evolving children plus remainder list
produced by `splitLoop`. -/
def sumSplit : QuadTree × QuadTree × QuadTree × QuadTree × List Elem → ℕ
  | (c0, c1, c2, c3, rem) => len c0 + len c1 + len c2 + len c3 + rem.length

/-- Element multiset of the four evolving children plus remainder list
produced by `splitLoop`. -/
def msSplit : QuadTree × QuadTree × QuadTree × QuadTree × List Elem → Multiset Elem
  | (c0, c1, c2, c3, rem) => elemsMS c0 + elemsMS c1 + elemsMS c2 + elemsMS c3 + (rem : Multiset Elem)

mutual

/-- The list of nodes on which `QuadTree::split` is invoked during one
`insert` call (including the nested inserts performed by the
redistribution loop of each split).  Mirrors the call structure of
`insertFuel`/`splitBody`/`splitLoop`. -/
def insertCalls : ℕ → QuadTree → Elem → List QuadTree
  | 0, _, _ => []
  | f + 1, .branch _ _ _ b _ tl tr br bl, e =>
    match getQuadrant b e.bounds with
    | some .TL => insertCalls f tl e
    | some .TR => insertCalls f tr e
    | some .BR => insertCalls f br e
    | some .BL => insertCalls f bl e
    | none => []
  | f + 1, .leaf c d md b es, e =>
    if (es ++ [e]).length > c then
      (QuadTree.leaf c d md b (es ++ [e])) :: splitCallsBody f c d md b (es ++ [e])
    else []

/-- The nodes on which `split` is invoked from within the body of a split
of a childless node with the given fields (via the redistribution
loop's nested inserts). -/
def splitCallsBody : ℕ → ℕ → ℕ → ℕ → Bounds → List Elem → List QuadTree
  | 0, _, _, _, _, _ => []
  | g + 1, c, d, md, b, es =>
    if d ≥ md then []
    else
        splitLoopCalls g b
          (.leaf c (d + 1) md ⟨b.x, b.y, b.width / 2, b.height / 2⟩ [])
          (.leaf c (d + 1) md ⟨b.x + b.width / 2, b.y, b.width / 2, b.height / 2⟩ [])
          (.leaf c (d + 1) md ⟨b.x + b.width / 2, b.y + b.height / 2, b.width / 2, b.height / 2⟩ [])
          (.leaf c (d + 1) md ⟨b.x, b.y + b.height / 2, b.width / 2, b.height / 2⟩ [])
          es

/-- The nodes on which `split` is invoked during the redistribution loop
of a split, threading the evolving children exactly as `splitLoop`
does. -/
def splitLoopCalls : ℕ → Bounds → QuadTree → QuadTree → QuadTree → QuadTree →
    List Elem → List QuadTree
  | _, _, _, _, _, _, [] => []
  | 0, _, _, _, _, _, _ => []
  | f + 1, b, c0, c1, c2, c3, e :: rest =>
    match getQuadrant b e.bounds with
    | some .TL => insertCalls f c0 e ++ splitLoopCalls f b (insertFuel f c0 e) c1 c2 c3 rest
    | some .TR => insertCalls f c1 e ++ splitLoopCalls f b c0 (insertFuel f c1 e) c2 c3 rest
    | some .BR => insertCalls f c2 e ++ splitLoopCalls f b c0 c1 (insertFuel f c2 e) c3 rest
    | some .BL => insertCalls f c3 e ++ splitLoopCalls f b c0 c1 c2 (insertFuel f c3 e) rest
    | none => splitLoopCalls f b c0 c1 c2 c3 rest

end

/-- Modelled from the spec's design note, for comparison only: the
containment check with the far edges compared against `x + width` /
`y + height` — what the note says the source's `contains` is *not*
doing. -/
def containsSpecAlt (self r : Bounds) : Bool :=
  decide (r.x ≥ self.x) && decide (r.x + r.width < self.x + self.width)
    && decide (r.y ≥ self.y) && decide (r.y + r.height < self.y + self.height)

/-! ### Concrete scenarios from the spec and the source's tests -/

/-- The root bounds `(0, 0, 16, 16)` used by every scenario. -/
def b16 : Bounds := ⟨0, 0, 16, 16⟩

/-- `r1 = (0, 0, 1, 1)` of the query scenario. -/
def qr1 : Elem := ⟨1, ⟨0, 0, 1, 1⟩⟩

/-- `r2 = (4, 4, 8, 8)` of the query scenario. -/
def qr2 : Elem := ⟨2, ⟨4, 4, 8, 8⟩⟩

/-- `r3 = (9, 9, 1, 1)` of the query scenario. -/
def qr3 : Elem := ⟨3, ⟨9, 9, 1, 1⟩⟩

/-- `r4 = (14, 14, 1, 1)`, the query element of the query scenario. -/
def qr4 : Bounds := ⟨14, 14, 1, 1⟩

/-- `r2 = (14, 14, 1, 1)` of the insert/iter scenario. -/
def ir2 : Elem := ⟨6, ⟨14, 14, 1, 1⟩⟩

/-- The tree of the query scenario: `r1`, `r2`, `r3` inserted into a
fresh tree with root bounds `(0, 0, 16, 16)`. -/
def queryScenarioTree : QuadTree := insertAll (newQT b16) [qr1, qr2, qr3]

/-- Element `(1, 1, 1, 1)` (lands in the TL quadrant after a split). -/
def sa : Elem := ⟨1, ⟨1, 1, 1, 1⟩⟩

/-- Element `(9, 1, 1, 1)` (lands in the TR quadrant after a split). -/
def sb : Elem := ⟨2, ⟨9, 1, 1, 1⟩⟩

/-- Element `(9, 9, 1, 1)` (lands in the BR quadrant after a split). -/
def sc : Elem := ⟨3, ⟨9, 9, 1, 1⟩⟩

/-- Element `(1, 9, 1, 1)` (lands in the BL quadrant after a split). -/
def sd : Elem := ⟨4, ⟨1, 9, 1, 1⟩⟩

/-- Element `(1, 2, 1, 1)` (lands in the TL quadrant after a split); its
insertion is the fifth and exceeds capacity 4, triggering the split. -/
def se : Elem := ⟨5, ⟨1, 2, 1, 1⟩⟩

/-- A tree whose root has split: five elements inserted into a fresh
tree with root bounds `(0, 0, 16, 16)` and capacity 4. -/
def splitScenarioTree : QuadTree := insertAll (newQT b16) [sa, sb, sc, sd, se]

/-- A query element straddling all four quadrants of `b16` while
contained in it (per `containsQT`). -/
def straddleQ : Bounds := ⟨7, 7, 2, 2⟩

/-! ## Basic lemmas -/

theorem len_pushRoot (t : QuadTree) (e : Elem) : len (pushRoot t e) = len t + 1 := by
  cases t <;> simp [pushRoot, len] <;> omega

theorem lenAux : ∀ f : ℕ,
    (∀ t e, len (insertFuel f t e) = len t + 1) ∧
    (∀ c d md b es, len (splitBody f c d md b es) = es.length) ∧
    (∀ b c0 c1 c2 c3 acc es, sumSplit (splitLoop f b c0 c1 c2 c3 acc es)
      = len c0 + len c1 + len c2 + len c3 + acc.length + es.length) := by
  intro f
  induction f with
  | zero =>
    refine ⟨fun t e => len_pushRoot t e, fun c d md b es => ?_, fun b c0 c1 c2 c3 acc es => ?_⟩
    · simp [splitBody, len]
    · cases es <;> simp [splitLoop, sumSplit] <;> omega
  | succ f ih =>
    obtain ⟨ihIns, ihBody, ihLoop⟩ := ih
    have hLoop : ∀ b c0 c1 c2 c3 acc es, sumSplit (splitLoop (f + 1) b c0 c1 c2 c3 acc es)
        = len c0 + len c1 + len c2 + len c3 + acc.length + es.length := by
      intro b c0 c1 c2 c3 acc es
      cases es with
      | nil => simp [splitLoop, sumSplit]
      | cons e rest =>
        rw [splitLoop]
        cases hq : getQuadrant b e.bounds with
        | none => simp only []; rw [ihLoop]; simp; omega
        | some q => cases q <;> (simp only []; rw [ihLoop]; rw [ihIns]; simp; omega)
    have hBody : ∀ c d md b es, len (splitBody (f + 1) c d md b es) = es.length := by
      intro c d md b es
      rw [splitBody]
      split
      · simp [len]
      · have h := ihLoop b
          (.leaf c (d + 1) md ⟨b.x, b.y, b.width / 2, b.height / 2⟩ [])
          (.leaf c (d + 1) md ⟨b.x + b.width / 2, b.y, b.width / 2, b.height / 2⟩ [])
          (.leaf c (d + 1) md ⟨b.x + b.width / 2, b.y + b.height / 2, b.width / 2, b.height / 2⟩ [])
          (.leaf c (d + 1) md ⟨b.x, b.y + b.height / 2, b.width / 2, b.height / 2⟩ [])
          [] es
        revert h
        rcases splitLoop f b _ _ _ _ [] es with ⟨c0, c1, c2, c3, rem⟩
        intro h
        simp [sumSplit, len] at h ⊢
        omega
    refine ⟨fun t e => ?_, hBody, hLoop⟩
    cases t with
    | leaf c d md b es =>
      rw [insertFuel]
      split
      · rw [ihBody]; simp [len]
      · simp [len]
    | branch c d md b es tl tr br bl =>
      rw [insertFuel]
      cases hq : getQuadrant b e.bounds with
      | none => simp [len]; omega
      | some q => cases q <;> (simp only []; simp [len, ihIns]; omega)

theorem len_insertFuel (f : ℕ) (t : QuadTree) (e : Elem) :
    len (insertFuel f t e) = len t + 1 :=
  (lenAux f).1 t e

theorem len_insert (t : QuadTree) (e : Elem) : len (insert t e) = len t + 1 :=
  len_insertFuel _ t e

theorem len_insertAll (t : QuadTree) (es : List Elem) :
    len (insertAll t es) = len t + es.length := by
  induction es generalizing t with
  | nil => simp [insertAll]
  | cons e rest ih =>
    show len (insertAll (insert t e) rest) = _
    rw [ih, len_insert]; simp; omega

theorem ms_pushRoot (t : QuadTree) (e : Elem) :
    elemsMS (pushRoot t e) = elemsMS t + {e} := by
  cases t <;> simp [pushRoot, elemsMS, toList, ← Multiset.coe_add, ← Multiset.cons_coe,
    ← Multiset.singleton_add] <;> abel

theorem msAux : ∀ f : ℕ,
    (∀ t e, elemsMS (insertFuel f t e) = elemsMS t + {e}) ∧
    (∀ c d md b es, elemsMS (splitBody f c d md b es) = (es : Multiset Elem)) ∧
    (∀ b c0 c1 c2 c3 acc es, msSplit (splitLoop f b c0 c1 c2 c3 acc es)
      = elemsMS c0 + elemsMS c1 + elemsMS c2 + elemsMS c3
        + (acc : Multiset Elem) + (es : Multiset Elem)) := by
  intro f
  induction f with
  | zero =>
    refine ⟨fun t e => ms_pushRoot t e, fun c d md b es => ?_, fun b c0 c1 c2 c3 acc es => ?_⟩
    · simp [splitBody, elemsMS, toList]
    · cases es <;> simp [splitLoop, msSplit, ← Multiset.coe_add, ← Multiset.cons_coe,
        ← Multiset.singleton_add] <;> abel
  | succ f ih =>
    obtain ⟨ihIns, ihBody, ihLoop⟩ := ih
    have hLoop : ∀ b c0 c1 c2 c3 acc es, msSplit (splitLoop (f + 1) b c0 c1 c2 c3 acc es)
        = elemsMS c0 + elemsMS c1 + elemsMS c2 + elemsMS c3
          + (acc : Multiset Elem) + (es : Multiset Elem) := by
      intro b c0 c1 c2 c3 acc es
      cases es with
      | nil => simp [splitLoop, msSplit]
      | cons e rest =>
        rw [splitLoop]
        cases hq : getQuadrant b e.bounds with
        | none =>
          simp only []
          rw [ihLoop]
          simp [← Multiset.coe_add, ← Multiset.cons_coe, ← Multiset.singleton_add]
          abel
        | some q =>
          cases q <;>
            (simp only []
             rw [ihLoop, ihIns]
             simp [← Multiset.coe_add, ← Multiset.cons_coe, ← Multiset.singleton_add]
             abel)
    have hBody : ∀ c d md b es, elemsMS (splitBody (f + 1) c d md b es)
        = (es : Multiset Elem) := by
      intro c d md b es
      rw [splitBody]
      split
      · simp [elemsMS, toList]
      · have h := ihLoop b
          (.leaf c (d + 1) md ⟨b.x, b.y, b.width / 2, b.height / 2⟩ [])
          (.leaf c (d + 1) md ⟨b.x + b.width / 2, b.y, b.width / 2, b.height / 2⟩ [])
          (.leaf c (d + 1) md ⟨b.x + b.width / 2, b.y + b.height / 2, b.width / 2, b.height / 2⟩ [])
          (.leaf c (d + 1) md ⟨b.x, b.y + b.height / 2, b.width / 2, b.height / 2⟩ [])
          [] es
        revert h
        rcases splitLoop f b _ _ _ _ [] es with ⟨c0, c1, c2, c3, rem⟩
        intro h
        simp [msSplit, elemsMS, toList, ← Multiset.coe_add, ← Multiset.cons_coe,
          ← Multiset.singleton_add] at h ⊢
        rw [← h]
        abel
    refine ⟨fun t e => ?_, hBody, hLoop⟩
    cases t with
    | leaf c d md b es =>
      rw [insertFuel]
      split
      · rw [ihBody]; simp [elemsMS, toList, ← Multiset.coe_add, ← Multiset.cons_coe,
          ← Multiset.singleton_add]
      · simp [elemsMS, toList, ← Multiset.coe_add, ← Multiset.cons_coe,
          ← Multiset.singleton_add]
    | branch c d md b es tl tr br bl =>
      rw [insertFuel]
      cases hq : getQuadrant b e.bounds with
      | none => simp [elemsMS, toList, ← Multiset.coe_add, ← Multiset.cons_coe,
          ← Multiset.singleton_add]; abel
      | some q =>
        cases q <;>
          (simp only []
           simp [elemsMS, toList, ← Multiset.coe_add, ← Multiset.cons_coe,
             ← Multiset.singleton_add] at ihIns ⊢
           rw [ihIns]
           abel)

theorem ms_insert (t : QuadTree) (e : Elem) : elemsMS (insert t e) = elemsMS t + {e} :=
  (msAux _).1 t e

theorem ms_insertAll (t : QuadTree) (es : List Elem) :
    elemsMS (insertAll t es) = elemsMS t + (es : Multiset Elem) := by
  induction es generalizing t with
  | nil => simp [insertAll]
  | cons e rest ih =>
    show elemsMS (insertAll (insert t e) rest) = _
    rw [ih, ms_insert]
    simp [← Multiset.coe_add, ← Multiset.cons_coe, ← Multiset.singleton_add]
    abel

/-! ## Bounds preservation -/

theorem rootBounds_splitBody (f c d md : ℕ) (b : Bounds) (es : List Elem) :
    rootBounds (splitBody f c d md b es) = b := by
  cases f with
  | zero => rfl
  | succ g =>
    rw [splitBody]
    split
    · rfl
    · rcases splitLoop g b _ _ _ _ [] es with ⟨c0, c1, c2, c3, rem⟩
      rfl

theorem rootBounds_insertFuel (f : ℕ) (t : QuadTree) (e : Elem) :
    rootBounds (insertFuel f t e) = rootBounds t := by
  cases f with
  | zero => cases t <;> rfl
  | succ g =>
    cases t with
    | leaf c d md b es =>
      rw [insertFuel]
      split
      · exact rootBounds_splitBody g c d md b (es ++ [e])
      · rfl
    | branch c d md b es tl tr br bl =>
      rw [insertFuel]
      cases getQuadrant b e.bounds with
      | none => rfl
      | some q => cases q <;> rfl

theorem splitLoop_bounds : ∀ (f : ℕ) (b : Bounds) (c0 c1 c2 c3 : QuadTree)
    (acc es : List Elem),
    rootBounds (splitLoop f b c0 c1 c2 c3 acc es).1 = rootBounds c0 ∧
    rootBounds (splitLoop f b c0 c1 c2 c3 acc es).2.1 = rootBounds c1 ∧
    rootBounds (splitLoop f b c0 c1 c2 c3 acc es).2.2.1 = rootBounds c2 ∧
    rootBounds (splitLoop f b c0 c1 c2 c3 acc es).2.2.2.1 = rootBounds c3 := by
  intro f
  induction f with
  | zero =>
    intro b c0 c1 c2 c3 acc es
    cases es <;> simp [splitLoop]
  | succ f ih =>
    intro b c0 c1 c2 c3 acc es
    cases es with
    | nil => simp [splitLoop]
    | cons e rest =>
      rw [splitLoop]
      cases hq : getQuadrant b e.bounds with
      | none => exact ih b c0 c1 c2 c3 (acc ++ [e]) rest
      | some q =>
        cases q
        · obtain ⟨h1, h2, h3, h4⟩ := ih b (insertFuel f c0 e) c1 c2 c3 acc rest
          exact ⟨h1.trans (rootBounds_insertFuel f c0 e), h2, h3, h4⟩
        · obtain ⟨h1, h2, h3, h4⟩ := ih b c0 (insertFuel f c1 e) c2 c3 acc rest
          exact ⟨h1, h2.trans (rootBounds_insertFuel f c1 e), h3, h4⟩
        · obtain ⟨h1, h2, h3, h4⟩ := ih b c0 c1 (insertFuel f c2 e) c3 acc rest
          exact ⟨h1, h2, h3.trans (rootBounds_insertFuel f c2 e), h4⟩
        · obtain ⟨h1, h2, h3, h4⟩ := ih b c0 c1 c2 (insertFuel f c3 e) acc rest
          exact ⟨h1, h2, h3, h4.trans (rootBounds_insertFuel f c3 e)⟩

theorem childrenBounds_splitBody (f c d md : ℕ) (b : Bounds) (es : List Elem)
    (h : d < md) :
    childrenBounds (splitBody (f + 1) c d md b es) =
      some (⟨b.x, b.y, b.width / 2, b.height / 2⟩,
            ⟨b.x + b.width / 2, b.y, b.width / 2, b.height / 2⟩,
            ⟨b.x + b.width / 2, b.y + b.height / 2, b.width / 2, b.height / 2⟩,
            ⟨b.x, b.y + b.height / 2, b.width / 2, b.height / 2⟩) := by
  rw [splitBody, if_neg (by omega)]
  have hb := splitLoop_bounds f b
    (.leaf c (d + 1) md ⟨b.x, b.y, b.width / 2, b.height / 2⟩ [])
    (.leaf c (d + 1) md ⟨b.x + b.width / 2, b.y, b.width / 2, b.height / 2⟩ [])
    (.leaf c (d + 1) md ⟨b.x + b.width / 2, b.y + b.height / 2, b.width / 2, b.height / 2⟩ [])
    (.leaf c (d + 1) md ⟨b.x, b.y + b.height / 2, b.width / 2, b.height / 2⟩ [])
    [] es
  revert hb
  rcases splitLoop f b _ _ _ _ [] es with ⟨c0, c1, c2, c3, rem⟩
  intro hb
  obtain ⟨h1, h2, h3, h4⟩ := hb
  simp [childrenBounds, rootBounds] at h1 h2 h3 h4 ⊢
  exact ⟨h1, h2, h3, h4⟩

theorem isLeafB_false_of_childrenBounds {t : QuadTree}
    {x : Bounds × Bounds × Bounds × Bounds} (h : childrenBounds t = some x) :
    isLeafB t = false := by
  cases t <;> simp [childrenBounds, isLeafB] at h ⊢

/-! ## Inserting without splitting -/

theorem insertFuel_leaf_noSplit (f c d md : ℕ) (b : Bounds) (es : List Elem) (e : Elem)
    (h : es.length + 1 ≤ c) :
    insertFuel f (.leaf c d md b es) e = .leaf c d md b (es ++ [e]) := by
  cases f with
  | zero => rfl
  | succ g => rw [insertFuel, if_neg (by simp; omega)]

theorem insertAll_leaf (c d md : ℕ) (b : Bounds) :
    ∀ (es cur : List Elem), cur.length + es.length ≤ c →
    insertAll (.leaf c d md b cur) es = .leaf c d md b (cur ++ es) := by
  intro es
  induction es with
  | nil => intro cur h; simp [insertAll]
  | cons e rest ih =>
    intro cur h
    simp only [List.length_cons] at h
    show insertAll (insert (.leaf c d md b cur) e) rest = _
    rw [insert, insertFuel_leaf_noSplit _ _ _ _ _ _ _ (by omega),
      ih (cur ++ [e]) (by simp; omega)]
    simp

/-! ## Fuel irrelevance of the query traversal -/

theorem nodeCount_pos (t : QuadTree) : 0 < nodeCount t := by
  cases t <;> simp [nodeCount]

theorem queryGoFuel_fuel_irrelevant : ∀ (f g : ℕ) (q : Bounds) (t : QuadTree)
    (stack : List QuadTree),
    nodeCount t + (stack.map nodeCount).sum < f →
    nodeCount t + (stack.map nodeCount).sum < g →
    queryGoFuel f q t stack = queryGoFuel g q t stack := by
  intro f
  induction f with
  | zero => intro g q t stack hf; exact absurd hf (by omega)
  | succ f ih =>
    intro g q t stack hf hg
    cases g with
    | zero => exact absurd hg (by omega)
    | succ g =>
      cases t with
      | leaf c d md b es =>
        cases stack with
        | nil => rfl
        | cons s rest =>
          rw [queryGoFuel, queryGoFuel]
          congr 1
          exact ih g q s rest (by simp [nodeCount] at hf ⊢; omega)
            (by simp [nodeCount] at hg ⊢; omega)
      | branch c d md b es tl tr br bl =>
        rw [queryGoFuel, queryGoFuel]
        congr 1
        cases hq : getQuadrant b q with
        | some qd =>
          cases qd <;>
            (simp only []
             exact ih g q _ stack (by simp [nodeCount] at hf ⊢; omega)
               (by simp [nodeCount] at hg ⊢; omega))
        | none =>
          simp only []
          split
          · exact ih g q tl (bl :: br :: tr :: stack)
              (by simp [nodeCount] at hf ⊢; omega)
              (by simp [nodeCount] at hg ⊢; omega)
          · rfl

/-! ## The claims -/

/-- C1: for every sequence of N elements inserted (via `insert`) into a
freshly constructed quadtree, `len()` afterwards equals N, and the
multiset of stored elements (as yielded by `iter()`) is exactly the
multiset of inserted elements — inserts and any capacity-triggered
splits they cause never lose or duplicate a stored element. -/
theorem claimC1 (b : Bounds) (es : List Elem) :
    len (insertAll (newQT b) es) = es.length ∧
    elemsMS (insertAll (newQT b) es) = (es : Multiset Elem) := by
  constructor
  · rw [len_insertAll]; simp [newQT, len]
  · rw [ms_insertAll]; simp [newQT, elemsMS, toList]

/-- C6: splitting a childless node with bounds `(0,0,16,16)` (at any
depth below `max_depth`, holding any elements) produces a node with
exactly four children whose bounds are `(0,0,8,8)`, `(8,0,8,8)`,
`(8,8,8,8)`, `(0,8,8,8)` in the order TL, TR, BR, BL — each with half
the parent's width and height. -/
theorem claimC6 (c d md : ℕ) (es : List Elem) (h : d < md) :
    ∃ t', splitQT (.leaf c d md ⟨0, 0, 16, 16⟩ es) = some t' ∧ isLeafB t' = false ∧
      childrenBounds t' =
        some (⟨0, 0, 8, 8⟩, ⟨8, 0, 8, 8⟩, ⟨8, 8, 8, 8⟩, ⟨0, 8, 8, 8⟩) := by
  have hne : fuelFor (.leaf c d md ⟨0, 0, 16, 16⟩ es) ≠ 0 := by
    simp [fuelFor]
  obtain ⟨g, hg⟩ := Nat.exists_eq_succ_of_ne_zero hne
  refine ⟨splitBody (fuelFor (.leaf c d md ⟨0, 0, 16, 16⟩ es)) c d md ⟨0, 0, 16, 16⟩ es,
    ?_, ?_, ?_⟩
  · rw [splitQT, if_neg (by simp [depthOf, maxDepthOf]; omega)]
  · exact isLeafB_false_of_childrenBounds
      (by rw [hg, childrenBounds_splitBody g c d md _ es h])
  · rw [hg, childrenBounds_splitBody g c d md _ es h]
    norm_num

/-- C6 witness: the split of a fresh-parameter node (capacity 4, depth
0, max_depth 10, empty) with bounds `(0,0,16,16)`. -/
theorem claimC6_witness :
    (0 : ℕ) < 10 ∧
    ∃ t', splitQT (.leaf 4 0 10 ⟨0, 0, 16, 16⟩ []) = some t' ∧ isLeafB t' = false ∧
      childrenBounds t' =
        some (⟨0, 0, 8, 8⟩, ⟨8, 0, 8, 8⟩, ⟨8, 8, 8, 8⟩, ⟨0, 8, 8, 8⟩) :=
  ⟨by norm_num, claimC6 4 0 10 [] (by norm_num)⟩

/-- C7: for every sequence of inserts into a fresh quadtree during which
the element count never exceeds the capacity 4 (so no split is ever
triggered — the tree remains a single childless node), `iter()` yields
exactly the inserted elements in insertion order, and `len()` is the
number of inserts. -/
theorem claimC7 (b : Bounds) (es : List Elem) (h : es.length ≤ 4) :
    insertAll (newQT b) es = .leaf 4 0 10 b es ∧
    toList (insertAll (newQT b) es) = es ∧
    len (insertAll (newQT b) es) = es.length := by
  have h0 : insertAll (.leaf 4 0 10 b []) es = .leaf 4 0 10 b ([] ++ es) :=
    insertAll_leaf 4 0 10 b es [] (by simpa)
  have h1 : insertAll (newQT b) es = .leaf 4 0 10 b es := by
    rw [newQT, h0]; simp
  exact ⟨h1, by rw [h1]; simp [toList], by rw [h1]; simp [len]⟩

/-- C7 witness: the spec's scenario — `r1 = (0,0,1,1)` and
`r2 = (14,14,1,1)` inserted into a root with bounds `(0,0,16,16)` and
capacity 4: no split occurs, `iter()` yields exactly `[r1, r2]`, and
`len()` is 2. -/
theorem claimC7_witness :
    ([qr1, ir2] : List Elem).length ≤ 4 ∧
    toList (insertAll (newQT b16) [qr1, ir2]) = [qr1, ir2] ∧
    len (insertAll (newQT b16) [qr1, ir2]) = 2 :=
  ⟨by norm_num, (claimC7 b16 [qr1, ir2] (by norm_num)).2.1,
    (claimC7 b16 [qr1, ir2] (by norm_num)).2.2⟩

/-- C8: after `clear()` on any quadtree, `len()` equals 0, a subsequent
`iter()` yields nothing, the node has no children (the tree collapses
back to a single unsplit node), and the root's bounds are unchanged. -/
theorem claimC8 (t : QuadTree) :
    len (clear t) = 0 ∧ toList (clear t) = [] ∧ isLeafB (clear t) = true ∧
    rootBounds (clear t) = rootBounds t := by
  cases t <;> simp [clear, len, toList, isLeafB, rootBounds]

/-- C10: on a quadtree whose root has never split (it has no children),
`query` yields exactly the root's stored elements in insertion order,
for every query element — including elements lying entirely outside the
tree's bounds; no geometric filtering against the query element happens
at a childless node. -/
theorem claimC10 (c d md : ℕ) (b : Bounds) (es : List Elem) (q : Bounds) :
    queryQT (.leaf c d md b es) q = es := by
  simp [queryQT, nodeCount, queryGoFuel]

/-- C4: the node containment check used by query (`contains`) holds for
an element `r` exactly when `r.x ≥ node.x`, `r.x + r.width < node.width`,
`r.y ≥ node.y` and `r.y + r.height < node.height` — the element's far
edge is compared against the node's raw `width`/`height` rather than
`x + width` / `y + height` (witnessed by a node bounds on which the two
readings disagree). -/
theorem claimC4 :
    (∀ self r : Bounds, containsQT self r = true ↔
      (r.x ≥ self.x ∧ r.x + r.width < self.width ∧
       r.y ≥ self.y ∧ r.y + r.height < self.height)) ∧
    containsQT ⟨8, 8, 8, 8⟩ ⟨12, 12, 1, 1⟩ = false ∧
    containsSpecAlt ⟨8, 8, 8, 8⟩ ⟨12, 12, 1, 1⟩ = true := by
  refine ⟨fun self r => ?_, ?_, ?_⟩
  · simp [containsQT, and_assoc]
  · norm_num [containsQT]
  · norm_num [containsSpecAlt]

/-- C5 counterexample: it is false that an element touching the mid-line
boundary coordinate belongs to the lower-valued (left/top) quadrant.  In
the node `(0,0,16,16)` (mid-line `x = 8`), the element `(8,0,4,4)`
touches the mid-line with its near edge and is assigned TopRight — the
higher-valued quadrant — and the element `(7,0,1,1)` touches the
mid-line with its far edge and is assigned no quadrant at all. -/
theorem claimC5_cex :
    getQuadrant ⟨0, 0, 16, 16⟩ ⟨8, 0, 4, 4⟩ = some .TR ∧
    (some Quadrant.TR ≠ some Quadrant.TL) ∧
    getQuadrant ⟨0, 0, 16, 16⟩ ⟨7, 0, 1, 1⟩ = none := by
  refine ⟨?_, by simp, ?_⟩ <;>
    norm_num [getQuadrant, fitsTopHalf, fitsBottomHalf, fitsLeftHalf, fitsRightHalf]

theorem fits_left_right_exclusive (s r : Bounds) (hw : 0 ≤ r.width) :
    ¬(fitsLeftHalf s r = true ∧ fitsRightHalf s r = true) := by
  rintro ⟨hL, hR⟩
  simp [fitsLeftHalf, fitsRightHalf] at hL hR
  obtain ⟨hL1, hL2⟩ := hL
  obtain ⟨hR1, hR2⟩ := hR
  linarith

theorem fits_top_bottom_exclusive (s r : Bounds) (hh : 0 ≤ r.height) :
    ¬(fitsTopHalf s r = true ∧ fitsBottomHalf s r = true) := by
  rintro ⟨hT, hB⟩
  simp [fitsTopHalf, fitsBottomHalf] at hT hB
  obtain ⟨hT1, hT2⟩ := hT
  obtain ⟨hB1, hB2⟩ := hB
  linarith

/-- C5 amended: quadrant assignment for insert uses half-width /
half-height splits of the current node's bounds with `≥` on the near
edge and strict `<` on the far edge against the mid-line: for every node
and element of nonnegative width and height, the element is assigned to
a child quadrant exactly when its bounds fit the corresponding half on
each axis under these comparisons; however, the mid-line boundary
coordinate belongs to the *higher*-valued (right/bottom) half — an
element whose near edge lies on the mid-line never fits the lower half,
and an element whose far edge lies on the mid-line fits neither half of
that axis. -/
theorem claimC5_amended (s r : Bounds) (hw : 0 ≤ r.width) (hh : 0 ≤ r.height) :
    ((getQuadrant s r = some .TL ↔
        (fitsTopHalf s r = true ∧ fitsLeftHalf s r = true)) ∧
     (getQuadrant s r = some .TR ↔
        (fitsTopHalf s r = true ∧ fitsRightHalf s r = true)) ∧
     (getQuadrant s r = some .BR ↔
        (fitsBottomHalf s r = true ∧ fitsRightHalf s r = true)) ∧
     (getQuadrant s r = some .BL ↔
        (fitsBottomHalf s r = true ∧ fitsLeftHalf s r = true)) ∧
     (getQuadrant s r = none ↔
        ¬((fitsTopHalf s r = true ∨ fitsBottomHalf s r = true) ∧
          (fitsLeftHalf s r = true ∨ fitsRightHalf s r = true)))) ∧
    (r.x = s.x + s.width / 2 → fitsLeftHalf s r = false) ∧
    (r.x + r.width = s.x + s.width / 2 →
      fitsLeftHalf s r = false ∧ (0 < r.width → fitsRightHalf s r = false)) := by
  have hLR := fits_left_right_exclusive s r hw
  have hTB := fits_top_bottom_exclusive s r hh
  refine ⟨?_, ?_, ?_⟩
  · cases hT : fitsTopHalf s r <;> cases hB : fitsBottomHalf s r <;>
      cases hL : fitsLeftHalf s r <;> cases hR : fitsRightHalf s r <;>
      simp_all [getQuadrant]
  · intro hx
    have hnot : ¬(r.x + r.width < s.x + s.width / 2) := by rw [hx]; intro h; linarith
    simp [fitsLeftHalf, decide_eq_false hnot]
  · intro hx
    constructor
    · have hnot : ¬(r.x + r.width < s.x + s.width / 2) := by rw [← hx]; exact lt_irrefl _
      simp [fitsLeftHalf, decide_eq_false hnot]
    · intro hwpos
      have hnot : ¬(r.x ≥ s.x + s.width / 2) := by rw [← hx]; intro h; linarith
      simp [fitsRightHalf, decide_eq_false hnot]

/-- C5 witness: the element `(1,1,1,1)` in the node `(0,0,16,16)` fits
the top and left halves and is assigned TopLeft, and the element
`(8,0,4,4)` starting on the mid-line does not fit the left half. -/
theorem claimC5_witness :
    getQuadrant ⟨0, 0, 16, 16⟩ ⟨1, 1, 1, 1⟩ = some .TL ∧
    fitsLeftHalf ⟨0, 0, 16, 16⟩ ⟨8, 0, 4, 4⟩ = false :=
  ⟨((claimC5_amended ⟨0, 0, 16, 16⟩ ⟨1, 1, 1, 1⟩ (by norm_num) (by norm_num)).1.1).mpr
      (by norm_num [fitsTopHalf, fitsLeftHalf]),
   (claimC5_amended ⟨0, 0, 16, 16⟩ ⟨8, 0, 4, 4⟩ (by norm_num) (by norm_num)).2.1
      (by norm_num)⟩

theorem queryScenario_eval : queryQT queryScenarioTree qr4 = [qr1, qr2, qr3] := by
  have ht : queryScenarioTree = .leaf 4 0 10 b16 [qr1, qr2, qr3] := by
    rw [queryScenarioTree, newQT,
      insertAll_leaf 4 0 10 b16 [qr1, qr2, qr3] [] (by norm_num)]
    simp
  rw [ht]
  simp [queryQT, nodeCount, queryGoFuel]

/-- C2 counterexample: the claim that the query result does not contain
`r1` is false — after inserting only `r1`, `r2`, `r3` (three elements,
never exceeding the capacity 4) the root never splits, and querying the
childless root with `r4` yields every stored element, `r1` included. -/
theorem claimC2_cex : qr1 ∈ queryQT queryScenarioTree qr4 := by
  rw [queryScenario_eval]; simp

/-- C2 amended: after inserting `r1 = (0,0,1,1)`, `r2 = (4,4,8,8)`,
`r3 = (9,9,1,1)` into a quadtree with root bounds `(0,0,16,16)` and
capacity 4, querying with `r4 = (14,14,1,1)` returns exactly
`[r1, r2, r3]` — the result contains `r2` and `r3`, but also `r1`:
three inserts never exceed the capacity, so the root never splits (no
BottomRight quadrant path exists), and a query on an unsplit root
yields all stored elements in insertion order. -/
theorem claimC2_amended : queryQT queryScenarioTree qr4 = [qr1, qr2, qr3] :=
  queryScenario_eval

theorem splitScenario_eval : queryQT splitScenarioTree straddleQ = [sa, se, sd, sc, sb] := by
  norm_num [splitScenarioTree, insertAll, insert, fuelFor, newQT, nodeCount, len,
    maxDepthOf, insertFuel, splitBody, splitLoop, getQuadrant, fitsTopHalf,
    fitsBottomHalf, fitsLeftHalf, fitsRightHalf, queryQT, queryGoFuel, containsQT,
    b16, sa, sb, sc, sd, se, straddleQ]

/-- C3 counterexample: for the split tree holding `sa, se` (TL), `sb`
(TR), `sc` (BR), `sd` (BL) and a contained query element fitting no
single quadrant, the query yields `[sa, se, sd, sc, sb]` — the children
are visited TL, BL, BR, TR — not `[sa, se, sb, sc, sd]`, which the
claimed visitation order TL, TR, BR, BL would produce. -/
theorem claimC3_cex :
    queryQT splitScenarioTree straddleQ = [sa, se, sd, sc, sb] ∧
    queryQT splitScenarioTree straddleQ ≠ [sa, se, sb, sc, sd] := by
  refine ⟨splitScenario_eval, ?_⟩
  rw [splitScenario_eval]
  simp [sa, sb, sc, sd, se]

/-- C3 amended: during a query, when the query element does not fit a
single child quadrant of a node that has children but is contained in
the node's bounds, all four children are visited in the order TopLeft,
then — popped from the pending LIFO stack onto which TopRight,
BottomRight, BottomLeft were pushed — BottomLeft, then BottomRight,
then TopRight; when the element is not contained, the traversal stops
and yields only what was already collected (the node's own elements). -/
theorem claimC3_amended (c d md c1 d1 md1 c2 d2 md2 c3 d3 md3 c4 d4 md4 : ℕ)
    (b b1 b2 b3 b4 : Bounds) (es l1 l2 l3 l4 : List Elem) (q : Bounds)
    (hq : getQuadrant b q = none) :
    (containsQT b q = true →
      queryQT (.branch c d md b es (.leaf c1 d1 md1 b1 l1) (.leaf c2 d2 md2 b2 l2)
          (.leaf c3 d3 md3 b3 l3) (.leaf c4 d4 md4 b4 l4)) q
        = es ++ l1 ++ l4 ++ l3 ++ l2) ∧
    (containsQT b q = false →
      queryQT (.branch c d md b es (.leaf c1 d1 md1 b1 l1) (.leaf c2 d2 md2 b2 l2)
          (.leaf c3 d3 md3 b3 l3) (.leaf c4 d4 md4 b4 l4)) q
        = es) := by
  constructor <;> intro hc <;>
    simp [queryQT, nodeCount, queryGoFuel, hq, hc]

/-- C3 witness: the amended traversal applied to the split scenario's
tree shape — the query yields the node's own elements, then TL's, then
BL's, then BR's, then TR's. -/
theorem claimC3_witness :
    queryQT (.branch 4 0 10 b16 [] (.leaf 4 1 10 ⟨0, 0, 8, 8⟩ [sa, se])
        (.leaf 4 1 10 ⟨8, 0, 8, 8⟩ [sb]) (.leaf 4 1 10 ⟨8, 8, 8, 8⟩ [sc])
        (.leaf 4 1 10 ⟨0, 8, 8, 8⟩ [sd])) straddleQ
      = [] ++ [sa, se] ++ [sd] ++ [sc] ++ [sb] :=
  (claimC3_amended 4 0 10 4 1 10 4 1 10 4 1 10 4 1 10 b16 ⟨0, 0, 8, 8⟩ ⟨8, 0, 8, 8⟩
      ⟨8, 8, 8, 8⟩ ⟨0, 8, 8, 8⟩ [] [sa, se] [sb] [sc] [sd] straddleQ
      (by norm_num [getQuadrant, fitsTopHalf, fitsBottomHalf, fitsLeftHalf,
        fitsRightHalf, b16, straddleQ])).1
    (by norm_num [containsQT, b16, straddleQ])

theorem callsAux : ∀ f : ℕ,
    (∀ t e s, s ∈ insertCalls f t e → isLeafB s = true) ∧
    (∀ c d md b es s, s ∈ splitCallsBody f c d md b es → isLeafB s = true) ∧
    (∀ b c0 c1 c2 c3 es s, s ∈ splitLoopCalls f b c0 c1 c2 c3 es →
      isLeafB s = true) := by
  intro f
  induction f with
  | zero =>
    refine ⟨fun t e s h => ?_, fun c d md b es s h => ?_, fun b c0 c1 c2 c3 es s h => ?_⟩
    · simp [insertCalls] at h
    · simp [splitCallsBody] at h
    · cases es <;> simp [splitLoopCalls] at h
  | succ f ih =>
    obtain ⟨ihIns, ihBody, ihLoop⟩ := ih
    have hLoop : ∀ b c0 c1 c2 c3 es s, s ∈ splitLoopCalls (f + 1) b c0 c1 c2 c3 es →
        isLeafB s = true := by
      intro b c0 c1 c2 c3 es s h
      cases es with
      | nil => simp [splitLoopCalls] at h
      | cons e rest =>
        rw [splitLoopCalls] at h
        cases hq : getQuadrant b e.bounds with
        | none => rw [hq] at h; exact ihLoop _ _ _ _ _ _ _ h
        | some q =>
          cases q <;> rw [hq] at h <;> rcases List.mem_append.mp h with h' | h' <;>
            first
              | exact ihIns _ _ _ h'
              | exact ihLoop _ _ _ _ _ _ _ h'
    have hBody : ∀ c d md b es s, s ∈ splitCallsBody (f + 1) c d md b es →
        isLeafB s = true := by
      intro c d md b es s h
      rw [splitCallsBody] at h
      split at h
      · simp at h
      · exact ihLoop _ _ _ _ _ _ _ h
    refine ⟨fun t e s h => ?_, hBody, hLoop⟩
    cases t with
    | leaf c d md b es =>
      rw [insertCalls] at h
      split at h
      · rcases List.mem_cons.mp h with h' | h'
        · rw [h']; rfl
        · exact ihBody _ _ _ _ _ _ h'
      · simp at h
    | branch c d md b es tl tr br bl =>
      rw [insertCalls] at h
      cases hq : getQuadrant b e.bounds with
      | none => rw [hq] at h; simp at h
      | some q => cases q <;> rw [hq] at h <;> exact ihIns _ _ _ h

theorem splitQT_ne_none_of_leaf {s : QuadTree} (h : isLeafB s = true) :
    splitQT s ≠ none := by
  cases s with
  | leaf c d md b es => rw [splitQT.eq_def]; split <;> simp
  | branch => simp [isLeafB] at h

/-- C9: for every tree, element and fuel — hence under every sequence of
public operations starting from a fresh tree — `split` is invoked (by
`insert` and the nested inserts of its redistribution loop) only on
nodes that have no children, so the double-split fault arm
(`unreachable!` in `split`, modelled as the `none` result of `splitQT`)
is never executed; and a split attempt on a node at depth ≥ max_depth
returns the tree unchanged, creating no children. -/
theorem claimC9 :
    (∀ (f : ℕ) (t : QuadTree) (e : Elem) (s : QuadTree), s ∈ insertCalls f t e →
      isLeafB s = true ∧ splitQT s ≠ none) ∧
    (∀ t : QuadTree, depthOf t ≥ maxDepthOf t → splitQT t = some t) := by
  constructor
  · intro f t e s h
    have hleaf := (callsAux f).1 t e s h
    exact ⟨hleaf, splitQT_ne_none_of_leaf hleaf⟩
  · intro t h
    rw [splitQT.eq_def, if_pos h]

/-- C9 witness: the fifth insert of the split scenario invokes `split`
exactly on the childless pre-split node (which is not a double-split
panic), and a split attempt at depth = max_depth = 10 returns the node
unchanged. -/
theorem claimC9_witness :
    isLeafB (.leaf 4 0 10 b16 [sa, sb, sc, sd, se]) = true ∧
    splitQT (.leaf 4 0 10 b16 [sa, sb, sc, sd, se]) ≠ none ∧
    splitQT (.leaf 4 10 10 b16 []) = some (.leaf 4 10 10 b16 []) := by
  have hmem : (QuadTree.leaf 4 0 10 b16 [sa, sb, sc, sd, se]) ∈
      insertCalls (fuelFor (.leaf 4 0 10 b16 [sa, sb, sc, sd]))
        (.leaf 4 0 10 b16 [sa, sb, sc, sd]) se := by
    norm_num [insertCalls, splitCallsBody, splitLoopCalls, insertFuel, fuelFor,
      nodeCount, len, maxDepthOf, getQuadrant, fitsTopHalf, fitsBottomHalf,
      fitsLeftHalf, fitsRightHalf, b16, sa, sb, sc, sd, se]
  have h1 := claimC9.1 _ _ _ _ hmem
  exact ⟨h1.1, h1.2, claimC9.2 _ (by simp [depthOf, maxDepthOf])⟩

end MapTools
